import Mathlib

/-!
Verification of the interest-accrual engine of `rent_calc.py`.

Shallow embedding conventions:
* `datetime` values (day granularity) are embedded as `ℤ`, via the proleptic
  Gregorian ordinal `mkDate` (same day-difference arithmetic as Python's
  `datetime` subtraction `.days` and `timedelta(days=1)` addition).
* `float` money/rate values are embedded as `ℚ`; Python's `round(x, 2)`
  (banker's rounding, round-half-to-even) is `round2`.
* Python's stable `sorted(xs, key=...)` is embedded as the stable insertion
  sort `sortByKey`.
* A raised `ValueError` of `validate_interest_rate_ranges` is embedded as
  `some e : Option RangeError`, recording which check fired and the 0-based
  loop index at which it fired; normal return is `none`.
-/

-- Batteries marks the `Rat` field operations `@[irreducible]`; restore the
-- default reducibility inside this file so that concrete runs of the embedded
-- engine can be evaluated by `decide`.
attribute [local semireducible] Rat.mul Rat.add Rat.sub Rat.inv Rat.ofScientific

namespace RentCalc

/-- `Payment` dataclass: `{date: datetime, amount: float}`. -/
structure Payment where
  date : ℤ
  amount : ℚ
deriving DecidableEq, Repr

/-- One entry of the interest-rate table: the tuple `(start, stop, rate)`
with `rate` a percentage such as `7.0`. -/
structure RateEntry where
  start : ℤ
  stop : ℤ
  rate : ℚ
deriving DecidableEq, Repr

/-- One row appended to `rows` by `detailed_interest_with_payments`:
`{"Okres od", "Okres do", "Stawka %", "Dni", "Kwota", "Odsetki"}`. -/
structure Row where
  period_from : ℤ
  period_to : ℤ
  rate : ℚ
  days : ℤ
  principal : ℚ
  interest : ℚ
deriving DecidableEq, Repr

/-- Python's two-argument `min` on dates: the first argument on ties. -/
def pymin (a b : ℤ) : ℤ := if a ≤ b then a else b

/-- Python's two-argument `max` on dates: the first argument on ties. -/
def pymax (a b : ℤ) : ℤ := if b ≤ a then a else b

/-- Python's two-argument `max` on amounts: the first argument on ties. -/
def pymaxQ (a b : ℚ) : ℚ := if b ≤ a then a else b

/-- Round a rational to the nearest integer, ties to the even integer:
Python's `round(_, 0)` convention (banker's rounding). -/
def roundHalfEven (q : ℚ) : ℤ :=
  if q - ⌊q⌋ < 1/2 then ⌊q⌋
  else if 1/2 < q - ⌊q⌋ then ⌊q⌋ + 1
  else if ⌊q⌋ % 2 = 0 then ⌊q⌋ else ⌊q⌋ + 1

/-- Python's `round(q, 2)`: round to 2 decimal places, ties to even. -/
def round2 (q : ℚ) : ℚ := (roundHalfEven (q * 100) : ℚ) / 100

/-- Stable insertion of `x` into `l`: `x` is placed before the first element
whose key is strictly larger (so after all earlier elements of equal key). -/
def insertByKey {α : Type} (key : α → ℤ) (x : α) : List α → List α
  | [] => [x]
  | y :: ys => if key x ≤ key y then x :: y :: ys else y :: insertByKey key x ys

/-- Stable sort by an integer key; embeds Python's `sorted(l, key=...)`
(Python's sort is stable, and any stable sort agrees with it). -/
def sortByKey {α : Type} (key : α → ℤ) : List α → List α
  | [] => []
  | x :: xs => insertByKey key x (sortByKey key xs)

/-- Gregorian leap-year test. -/
def isLeap (y : ℕ) : Bool := y % 4 == 0 && (y % 100 != 0 || y % 400 == 0)

/-- Days in the months strictly before month `m` of a non-leap year. -/
def monthOffset (m : ℕ) : ℕ :=
  [0, 31, 59, 90, 120, 151, 181, 212, 243, 273, 304, 334].getD (m - 1) 0

/-- Proleptic Gregorian ordinal of the date `y-m-d` (day count in ℤ, the
same value as Python's `datetime(y, m, d).toordinal()`), so that
subtracting two `mkDate` values gives the calendar-day difference. -/
def mkDate (y m d : ℕ) : ℤ :=
  (((y - 1) * 365 + (y - 1) / 4 - (y - 1) / 100 + (y - 1) / 400
    + monthOffset m + (if 2 < m && isLeap y then 1 else 0) + d : ℕ) : ℤ)

/-- `DEFAULT_INTEREST_RATES` of `rent_calc.py` (NBP reference + 5.5 p.p.). -/
def DEFAULT_INTEREST_RATES : List RateEntry := [
  ⟨mkDate 2016 1 1,  mkDate 2020 3 17, 7.00⟩,
  ⟨mkDate 2020 3 18, mkDate 2020 4 8,  6.50⟩,
  ⟨mkDate 2020 4 9,  mkDate 2020 5 28, 6.00⟩,
  ⟨mkDate 2020 5 29, mkDate 2021 10 6, 5.60⟩,
  ⟨mkDate 2021 10 7, mkDate 2021 11 3, 6.00⟩,
  ⟨mkDate 2021 11 4, mkDate 2021 12 7, 6.75⟩,
  ⟨mkDate 2021 12 8, mkDate 2022 1 4,  7.25⟩,
  ⟨mkDate 2022 1 5,  mkDate 2022 2 8,  7.75⟩,
  ⟨mkDate 2022 2 9,  mkDate 2022 3 8,  8.25⟩,
  ⟨mkDate 2022 3 9,  mkDate 2022 4 5,  9.00⟩,
  ⟨mkDate 2022 4 6,  mkDate 2022 5 5,  10.00⟩,
  ⟨mkDate 2022 5 6,  mkDate 2022 6 8,  10.75⟩,
  ⟨mkDate 2022 6 9,  mkDate 2022 7 6,  11.50⟩,
  ⟨mkDate 2022 7 7,  mkDate 2022 9 7,  12.00⟩,
  ⟨mkDate 2022 9 8,  mkDate 2023 9 6,  12.25⟩,
  ⟨mkDate 2023 9 7,  mkDate 2023 10 3, 11.50⟩,
  ⟨mkDate 2023 10 4, mkDate 2024 6 5,  11.25⟩,
  ⟨mkDate 2024 6 6,  mkDate 2100 1 1,  10.75⟩]

/-- The rate normalization of `get_interest_rates`:
`float(rate) / 100 if float(rate) > 20 else float(rate)`. -/
def normRate (r : ℚ) : ℚ := if 20 < r then r / 100 else r

/-- Apply `normRate` to the rate component of a table entry. -/
def normEntry (e : RateEntry) : RateEntry := ⟨e.start, e.stop, normRate e.rate⟩

/-- The error raised (as Python `ValueError`) by
`validate_interest_rate_ranges`, with the 0-based index of the interval
(in start-date-sorted order) at which the check fired. -/
inductive RangeError where
  | reversedRange (i : ℕ)
  | overlap (i : ℕ)
  | gap (i : ℕ)
deriving DecidableEq, Repr

/-- The validation loop of `validate_interest_rate_ranges`, walking the
sorted list with the running index and previous entry:
reversed-range check first, then (when a previous entry exists) the
overlap check `start <= prev_stop`, then the gap check
`(start - prev_stop).days > 1`; fail-fast on the first violation. -/
def walkValidate : ℕ → Option RateEntry → List RateEntry → Option RangeError
  | _, _, [] => none
  | i, none, r :: rs =>
    if r.start > r.stop then some (.reversedRange i)
    else walkValidate (i + 1) (some r) rs
  | i, some q, r :: rs =>
    if r.start > r.stop then some (.reversedRange i)
    else if r.start ≤ q.stop then some (.overlap i)
    else if 1 < r.start - q.stop then some (.gap i)
    else walkValidate (i + 1) (some r) rs

/-- `validate_interest_rate_ranges(rates)`: sort by start date, then walk. -/
def validate_interest_rate_ranges (rates : List RateEntry) : Option RangeError :=
  walkValidate 0 none (sortByKey (fun r => r.start) rates)

instance {ε α : Type} [DecidableEq ε] [DecidableEq α] :
    DecidableEq (Except ε α) := fun a b =>
  match a, b with
  | Except.ok x, Except.ok y =>
    if h : x = y then Decidable.isTrue (congrArg Except.ok h)
    else Decidable.isFalse (fun c => h (Except.ok.inj c))
  | Except.error e, Except.error f =>
    if h : e = f then Decidable.isTrue (congrArg Except.error h)
    else Decidable.isFalse (fun c => h (Except.error.inj c))
  | Except.ok _, Except.error _ => Decidable.isFalse (fun c => Except.noConfusion c)
  | Except.error _, Except.ok _ => Decidable.isFalse (fun c => Except.noConfusion c)

/-- `get_interest_rates()` on a stored table `tbl`: normalize every rate
(`/100` when `> 20`), validate (propagating the error), and return the
table sorted by start date. -/
def get_interest_rates (tbl : List RateEntry) :
    Except RangeError (List RateEntry) :=
  let rates := tbl.map normEntry
  match validate_interest_rate_ranges rates with
  | some e => Except.error e
  | none => Except.ok (sortByKey (fun r => r.start) rates)

/-- The inner `while j < len(interest_rates)` loop of
`detailed_interest_with_payments`, scanning rate entries from index
`rate_idx` on: break as soon as `rate_start > seg_end`; otherwise take the
overlap with `[seg_start, seg_end]` and emit a row when `days > 0`, with
`intr = round(principal * rate / 100 * days / 365, 2)`. -/
def scanRates (seg_start seg_end : ℤ) (principal : ℚ) :
    List RateEntry → List Row
  | [] => []
  | r :: rs =>
    if r.start > seg_end then []
    else
      let period_from := pymax r.start seg_start
      let period_to := pymin r.stop seg_end
      let days := period_to - period_from + 1
      (if 0 < days then
        [⟨period_from, period_to, r.rate, days, principal,
          round2 (principal * r.rate / 100 * (days : ℚ) / 365)⟩]
       else []) ++ scanRates seg_start seg_end principal rs

/-- One payment segment: the skip loop
`while rate_idx < len(interest_rates) and interest_rates[rate_idx][1] < seg_start`
(i.e. `dropWhile`), then the scan loop. -/
def segmentRows (rates : List RateEntry) (seg_start seg_end : ℤ)
    (principal : ℚ) : List Row :=
  scanRates seg_start seg_end principal
    (rates.dropWhile (fun r => r.stop < seg_start))

/-- The `for pay in payments_sorted` loop of
`detailed_interest_with_payments`, carrying `principal` and `seg_start`:
`seg_end = min(pay.date, stop)`; clamp `seg_start` down to `seg_end` when it
exceeds it; emit the segment's rows; then
`principal = max(principal - pay.amount, 0)`, `seg_start = pay.date + 1`,
and `break` when the new `seg_start` exceeds `stop`. -/
def engineLoop (rates : List RateEntry) (stop : ℤ) :
    List Payment → ℚ → ℤ → List Row
  | [], _, _ => []
  | p :: ps, principal, seg_start =>
    let seg_end := pymin p.date stop
    let seg_start' := if seg_start > seg_end then seg_end else seg_start
    let rows := segmentRows rates seg_start' seg_end principal
    let principal' := pymaxQ (principal - p.amount) 0
    let next_start := p.date + 1
    if next_start > stop then rows
    else rows ++ engineLoop rates stop ps principal' next_start

/-- `detailed_interest_with_payments(amount, due_date, payments, stop)`,
with the rate table (the result of `get_interest_rates()`) passed
explicitly: sort the payments, append the synthetic terminal
`Payment(date=stop, amount=0.0)`, and run the segment loop starting from
`principal = amount`, `seg_start = due_date`. -/
def detailed_interest_with_payments (amount : ℚ) (due_date : ℤ)
    (payments : List Payment) (stop : ℤ) (rates : List RateEntry) : List Row :=
  engineLoop rates stop
    (sortByKey (fun p => p.date) payments ++ [⟨stop, 0⟩]) amount due_date

/-- `df["Odsetki"].sum()`: the total of the line-item interests
(`0` for an empty result). -/
def sumInterest (rows : List Row) : ℚ := (rows.map (fun r => r.interest)).sum

/-- `calculate_total_interest(invoice)` with the invoice fields, the cutoff
(`datetime.today()`) and the rate table passed explicitly: `0` when
`invoice.amount == 0`, else the summed breakdown over the date-sorted
payments. -/
def calculate_total_interest (amount : ℚ) (due_date : ℤ)
    (payments : List Payment) (today : ℤ) (rates : List RateEntry) : ℚ :=
  if amount = 0 then 0
  else sumInterest (detailed_interest_with_payments amount due_date
    (sortByKey (fun p => p.date) payments) today rates)

/-- The whole pipeline on a stored rate table: `get_interest_rates` (with
its validation) feeding `detailed_interest_with_payments`, summed. -/
def totalWithTable (tbl : List RateEntry) (amount : ℚ) (due_date : ℤ)
    (payments : List Payment) (stop : ℤ) : Except RangeError ℚ :=
  match get_interest_rates tbl with
  | Except.error e => Except.error e
  | Except.ok rs => Except.ok
      (sumInterest (detailed_interest_with_payments amount due_date payments stop rs))

/-- The start of the first processed segment, after clamping: the minimum of
the due date, the cutoff and every payment date. -/
def firstSegStart (due_date stop : ℤ) (payments : List Payment) : ℤ :=
  pymin due_date (pymin stop (payments.foldr (fun p acc => pymin p.date acc) stop))

/-- Adjacency condition between two consecutive sorted intervals that
validation accepts: no overlap and a gap of at most one day. -/
def okPair (q r : RateEntry) : Prop := q.stop < r.start ∧ r.start - q.stop ≤ 1

/-- Pointwise comparison of two rate tables with identical date ranges:
entry-for-entry, equal dates and a (weakly) larger rate on the right. -/
def rateLe (a b : RateEntry) : Prop :=
  a.start = b.start ∧ a.stop = b.stop ∧ a.rate ≤ b.rate

/-- Lift a relation to `Option`: both absent, or both present and related. -/
def optRel {α : Type} (R : α → α → Prop) : Option α → Option α → Prop
  | none, none => True
  | some a, some b => R a b
  | _, _ => False

instance (q r : RateEntry) : Decidable (okPair q r) :=
  decidable_of_iff (q.stop < r.start ∧ r.start - q.stop ≤ 1) Iff.rfl

/-- Every adjacent pair of the list satisfies `okPair` (the no-overlap,
gap-at-most-one-day condition validation checks on the sorted table). -/
def adjacentOk : List RateEntry → Prop
  | [] => True
  | [_] => True
  | q :: r :: rest => okPair q r ∧ adjacentOk (r :: rest)

instance decAdjacentOk : (l : List RateEntry) → Decidable (adjacentOk l)
  | [] => Decidable.isTrue trivial
  | [_] => Decidable.isTrue trivial
  | _ :: r :: rest =>
    @instDecidableAnd _ _ _ (decAdjacentOk (r :: rest))

/-- A store of Python list-of-`Payment` objects, addressed by allocation
index: the mutable-heap side of the engine, used to state that the engine
never mutates its caller's list. -/
structure ListStore where
  lists : List (List Payment)
deriving DecidableEq, Repr

/-- Read the list object held by reference `r`. -/
def readRef (h : ListStore) (r : ℕ) : List Payment := h.lists.getD r []

/-- Allocate a fresh list object (what `sorted(...)` returns); yields the new
store and the fresh reference. -/
def allocRef (h : ListStore) (l : List Payment) : ListStore × ℕ :=
  (⟨h.lists ++ [l]⟩, h.lists.length)

/-- In-place `list.append(p)` on the object held by reference `r`. -/
def appendRef (h : ListStore) (r : ℕ) (p : Payment) : ListStore :=
  ⟨h.lists.set r (readRef h r ++ [p])⟩

/-- Heap-level `detailed_interest_with_payments`: the caller's payments list
is passed by reference; `payments_sorted = sorted(payments, ...)` allocates a
fresh object, and the synthetic terminal `Payment(date=stop, amount=0.0)` is
appended, by mutation, to that fresh object only. -/
def detailed_interest_heap (h : ListStore) (amount : ℚ) (due_date : ℤ)
    (paymentsRef : ℕ) (stop : ℤ) (rates : List RateEntry) :
    ListStore × List Row :=
  let sorted_copy := sortByKey (fun p => p.date) (readRef h paymentsRef)
  let alloc1 := allocRef h sorted_copy
  let h2 := appendRef alloc1.1 alloc1.2 ⟨stop, 0⟩
  (h2, engineLoop rates stop (readRef h2 alloc1.2) amount due_date)

/-- `Invoice` dataclass, with its owned payments list held by reference. -/
structure Invoice where
  id : ℕ
  due_date : ℤ
  amount : ℚ
  paymentsRef : ℕ
deriving DecidableEq, Repr

/-- Heap-level `calculate_total_interest(invoice)`: reads `invoice.amount`,
`invoice.due_date` and the payments object, passes a freshly allocated
`sorted(invoice.payments, ...)` copy to the engine, and writes no invoice
field and no pre-existing list object. -/
def calculate_total_interest_heap (h : ListStore) (inv : Invoice)
    (today : ℤ) (rates : List RateEntry) : ListStore × ℚ :=
  if inv.amount = 0 then (h, 0)
  else
    let sorted_arg := sortByKey (fun p => p.date) (readRef h inv.paymentsRef)
    let alloc1 := allocRef h sorted_arg
    let res := detailed_interest_heap alloc1.1 inv.amount inv.due_date
      alloc1.2 today rates
    (res.1, sumInterest res.2)

theorem mem_insertByKey {α : Type} (key : α → ℤ) (x : α) (l : List α) (a : α) :
    a ∈ insertByKey key x l ↔ a = x ∨ a ∈ l := by
  induction l with
  | nil => simp [insertByKey]
  | cons y ys ih =>
    by_cases h : key x ≤ key y
    · simp [insertByKey, h]
    · simp [insertByKey, h, ih]
      tauto

theorem mem_sortByKey {α : Type} (key : α → ℤ) (l : List α) (a : α) :
    a ∈ sortByKey key l ↔ a ∈ l := by
  induction l with
  | nil => simp [sortByKey]
  | cons y ys ih => simp [sortByKey, mem_insertByKey, ih]

theorem pairwise_insertByKey {α : Type} (key : α → ℤ) (x : α) (l : List α)
    (h : l.Pairwise (fun a b => key a ≤ key b)) :
    (insertByKey key x l).Pairwise (fun a b => key a ≤ key b) := by
  induction l with
  | nil => simp [insertByKey]
  | cons y ys ih =>
    rw [List.pairwise_cons] at h
    by_cases hxy : key x ≤ key y
    · rw [insertByKey, if_pos hxy, List.pairwise_cons]
      refine ⟨?_, List.pairwise_cons.2 h⟩
      intro a ha
      rcases List.mem_cons.1 ha with rfl | ha
      · exact hxy
      · exact le_trans hxy (h.1 a ha)
    · rw [insertByKey, if_neg hxy, List.pairwise_cons]
      refine ⟨?_, ih h.2⟩
      intro a ha
      rcases (mem_insertByKey key x ys a).1 ha with rfl | ha
      · exact le_of_lt (lt_of_not_le hxy)
      · exact h.1 a ha

theorem pairwise_sortByKey {α : Type} (key : α → ℤ) (l : List α) :
    (sortByKey key l).Pairwise (fun a b => key a ≤ key b) := by
  induction l with
  | nil => simp [sortByKey]
  | cons y ys ih => exact pairwise_insertByKey key y _ ih

theorem insertByKey_of_le {α : Type} (key : α → ℤ) (x : α) (l : List α)
    (h : ∀ a ∈ l, key x ≤ key a) : insertByKey key x l = x :: l := by
  cases l with
  | nil => rfl
  | cons y ys => rw [insertByKey, if_pos (h y (List.mem_cons_self y ys))]

theorem sortByKey_of_pairwise {α : Type} (key : α → ℤ) (l : List α)
    (h : l.Pairwise (fun a b => key a ≤ key b)) : sortByKey key l = l := by
  induction l with
  | nil => rfl
  | cons y ys ih =>
    rw [List.pairwise_cons] at h
    rw [sortByKey, ih h.2, insertByKey_of_le key y ys h.1]

theorem sortByKey_idem {α : Type} (key : α → ℤ) (l : List α) :
    sortByKey key (sortByKey key l) = sortByKey key l :=
  sortByKey_of_pairwise key _ (pairwise_sortByKey key l)

theorem forall₂_insertByKey {α : Type} (key : α → ℤ) {R : α → α → Prop}
    (hkey : ∀ a b, R a b → key a = key b) {x y : α} {l m : List α}
    (hxy : R x y) (h : List.Forall₂ R l m) :
    List.Forall₂ R (insertByKey key x l) (insertByKey key y m) := by
  induction h with
  | nil => exact List.Forall₂.cons hxy List.Forall₂.nil
  | cons hab hrest ih =>
    rename_i a b l' m'
    by_cases hc : key x ≤ key a
    · rw [insertByKey, if_pos hc, insertByKey,
        if_pos (by rw [← hkey x y hxy, ← hkey a b hab]; exact hc)]
      exact List.Forall₂.cons hxy (List.Forall₂.cons hab hrest)
    · rw [insertByKey, if_neg hc, insertByKey,
        if_neg (by rw [← hkey x y hxy, ← hkey a b hab]; exact hc)]
      exact List.Forall₂.cons hab ih

theorem forall₂_sortByKey {α : Type} (key : α → ℤ) {R : α → α → Prop}
    (hkey : ∀ a b, R a b → key a = key b) {l m : List α}
    (h : List.Forall₂ R l m) :
    List.Forall₂ R (sortByKey key l) (sortByKey key m) := by
  induction h with
  | nil => exact List.Forall₂.nil
  | cons hab hrest ih => exact forall₂_insertByKey key hkey hab ih

theorem le_roundHalfEven (q : ℚ) : ⌊q⌋ ≤ roundHalfEven q := by
  unfold roundHalfEven
  split_ifs <;> omega

theorem roundHalfEven_le_succ (q : ℚ) : roundHalfEven q ≤ ⌊q⌋ + 1 := by
  unfold roundHalfEven
  split_ifs <;> omega

theorem roundHalfEven_mono {x y : ℚ} (h : x ≤ y) :
    roundHalfEven x ≤ roundHalfEven y := by
  have hf : ⌊x⌋ ≤ ⌊y⌋ := Int.floor_le_floor h
  rcases lt_or_eq_of_le hf with hlt | heq
  · have h1 := roundHalfEven_le_succ x
    have h2 := le_roundHalfEven y
    omega
  · have hr : x - (⌊y⌋ : ℚ) ≤ y - (⌊y⌋ : ℚ) := sub_le_sub_right h _
    unfold roundHalfEven
    rw [heq]
    split_ifs <;>
      first
        | omega
        | (exfalso; linarith)

theorem round2_mono {x y : ℚ} (h : x ≤ y) : round2 x ≤ round2 y := by
  unfold round2
  have h100 : x * 100 ≤ y * 100 := by linarith
  have := roundHalfEven_mono h100
  have hcast : ((roundHalfEven (x * 100) : ℚ)) ≤ ((roundHalfEven (y * 100) : ℚ)) := by
    exact_mod_cast this
  linarith

theorem walkValidate_none_iff :
    ∀ (rs : List RateEntry) (i : ℕ) (prev : Option RateEntry),
    walkValidate i prev rs = none ↔
      ((∀ r ∈ rs, r.start ≤ r.stop) ∧ adjacentOk (prev.toList ++ rs)) := by
  intro rs
  induction rs with
  | nil =>
    intro i prev
    cases prev <;> simp [walkValidate, adjacentOk]
  | cons r rs' ih =>
    intro i prev
    cases prev with
    | none =>
      by_cases hrev : r.start > r.stop
      · simp only [walkValidate, if_pos hrev]
        constructor
        · intro h; exact absurd h (by simp)
        · rintro ⟨hmem, -⟩
          exact absurd (hmem r (List.mem_cons_self r rs')) (not_le.2 hrev)
      · simp only [walkValidate, if_neg hrev]
        rw [ih (i + 1) (some r)]
        constructor
        · rintro ⟨hmem, hch⟩
          refine ⟨?_, ?_⟩
          · intro a ha
            rcases List.mem_cons.1 ha with rfl | ha
            · exact not_lt.1 hrev
            · exact hmem a ha
          · simpa using hch
        · rintro ⟨hmem, hch⟩
          refine ⟨fun a ha => hmem a (List.mem_cons_of_mem r ha), ?_⟩
          simpa using hch
    | some q =>
      by_cases hrev : r.start > r.stop
      · simp only [walkValidate, if_pos hrev]
        constructor
        · intro h; exact absurd h (by simp)
        · rintro ⟨hmem, -⟩
          exact absurd (hmem r (List.mem_cons_self r rs')) (not_le.2 hrev)
      · by_cases hov : r.start ≤ q.stop
        · simp only [walkValidate, if_neg hrev, if_pos hov]
          constructor
          · intro h; exact absurd h (by simp)
          · rintro ⟨-, hch⟩
            have : okPair q r := (show adjacentOk (q :: r :: rs') by
              simpa using hch).1
            exact absurd hov (not_le.2 this.1)
        · by_cases hgap : 1 < r.start - q.stop
          · simp only [walkValidate, if_neg hrev, if_neg hov, if_pos hgap]
            constructor
            · intro h; exact absurd h (by simp)
            · rintro ⟨-, hch⟩
              obtain ⟨-, h2⟩ : okPair q r := (show adjacentOk (q :: r :: rs') by
                simpa using hch).1
              omega
          · simp only [walkValidate, if_neg hrev, if_neg hov, if_neg hgap]
            rw [ih (i + 1) (some r)]
            constructor
            · rintro ⟨hmem, hch⟩
              refine ⟨?_, ?_⟩
              · intro a ha
                rcases List.mem_cons.1 ha with rfl | ha
                · exact not_lt.1 hrev
                · exact hmem a ha
              · simp only [Option.toList, List.cons_append, List.nil_append] at hch ⊢
                exact ⟨⟨not_le.1 hov, not_lt.1 hgap⟩, by simpa using hch⟩
            · rintro ⟨hmem, hch⟩
              refine ⟨fun a ha => hmem a (List.mem_cons_of_mem r ha), ?_⟩
              simp only [Option.toList, List.cons_append, List.nil_append] at hch ⊢
              exact hch.2

theorem walkValidate_reversed :
    ∀ (rs : List RateEntry) (i j : ℕ) (prev : Option RateEntry),
    walkValidate i prev rs = some (RangeError.reversedRange j) →
    ∃ k r, j = i + k ∧ rs[k]? = some r ∧ r.stop < r.start := by
  intro rs
  induction rs with
  | nil => intro i j prev h; simp [walkValidate] at h
  | cons r rs' ih =>
    intro i j prev h
    have step :
        (r.start > r.stop ∧ j = i) ∨
        walkValidate (i + 1) (some r) rs' = some (RangeError.reversedRange j) := by
      cases prev with
      | none =>
        by_cases hrev : r.start > r.stop
        · simp only [walkValidate, if_pos hrev, Option.some.injEq] at h
          exact Or.inl ⟨hrev, RangeError.reversedRange.inj h.symm⟩
        · simp only [walkValidate, if_neg hrev] at h
          exact Or.inr h
      | some q =>
        by_cases hrev : r.start > r.stop
        · simp only [walkValidate, if_pos hrev, Option.some.injEq] at h
          exact Or.inl ⟨hrev, RangeError.reversedRange.inj h.symm⟩
        · by_cases hov : r.start ≤ q.stop
          · simp only [walkValidate, if_neg hrev, if_pos hov, Option.some.injEq] at h
            exact absurd h (by intro c; cases c)
          · by_cases hgap : 1 < r.start - q.stop
            · simp only [walkValidate, if_neg hrev, if_neg hov, if_pos hgap,
                Option.some.injEq] at h
              exact absurd h (by intro c; cases c)
            · simp only [walkValidate, if_neg hrev, if_neg hov, if_neg hgap] at h
              exact Or.inr h
    rcases step with ⟨hrev, rfl⟩ | h'
    · exact ⟨0, r, by omega, by simp, hrev⟩
    · obtain ⟨k, a, hj, hget, hcond⟩ := ih (i + 1) j (some r) h'
      exact ⟨k + 1, a, by omega, by simpa using hget, hcond⟩

theorem walkValidate_overlap :
    ∀ (rs : List RateEntry) (i j : ℕ) (prev : Option RateEntry),
    walkValidate i prev rs = some (RangeError.overlap j) →
    ∃ k r q, j = i + k ∧ rs[k]? = some r ∧ r.start ≤ q.stop ∧
      ((k = 0 ∧ prev = some q) ∨ ∃ k2, k = k2 + 1 ∧ rs[k2]? = some q) := by
  intro rs
  induction rs with
  | nil => intro i j prev h; simp [walkValidate] at h
  | cons r rs' ih =>
    intro i j prev h
    have step :
        (∃ q, prev = some q ∧ r.start ≤ q.stop ∧ j = i) ∨
        walkValidate (i + 1) (some r) rs' = some (RangeError.overlap j) := by
      cases prev with
      | none =>
        by_cases hrev : r.start > r.stop
        · simp only [walkValidate, if_pos hrev, Option.some.injEq] at h
          exact absurd h (by intro c; cases c)
        · simp only [walkValidate, if_neg hrev] at h
          exact Or.inr h
      | some q =>
        by_cases hrev : r.start > r.stop
        · simp only [walkValidate, if_pos hrev, Option.some.injEq] at h
          exact absurd h (by intro c; cases c)
        · by_cases hov : r.start ≤ q.stop
          · simp only [walkValidate, if_neg hrev, if_pos hov, Option.some.injEq] at h
            exact Or.inl ⟨q, rfl, hov, RangeError.overlap.inj h.symm⟩
          · by_cases hgap : 1 < r.start - q.stop
            · simp only [walkValidate, if_neg hrev, if_neg hov, if_pos hgap,
                Option.some.injEq] at h
              exact absurd h (by intro c; cases c)
            · simp only [walkValidate, if_neg hrev, if_neg hov, if_neg hgap] at h
              exact Or.inr h
    rcases step with ⟨q, rfl, hov, rfl⟩ | h'
    · exact ⟨0, r, q, by omega, by simp, hov, Or.inl ⟨rfl, rfl⟩⟩
    · obtain ⟨k, a, q, hj, hget, hcond, hq⟩ := ih (i + 1) j (some r) h'
      refine ⟨k + 1, a, q, by omega, by simpa using hget, hcond, Or.inr ⟨k, rfl, ?_⟩⟩
      rcases hq with ⟨rfl, hq⟩ | ⟨k2, rfl, hq⟩
      · simpa using (Option.some.inj hq).symm ▸ rfl
      · simpa using hq

theorem walkValidate_gap :
    ∀ (rs : List RateEntry) (i j : ℕ) (prev : Option RateEntry),
    walkValidate i prev rs = some (RangeError.gap j) →
    ∃ k r q, j = i + k ∧ rs[k]? = some r ∧ 1 < r.start - q.stop ∧
      ((k = 0 ∧ prev = some q) ∨ ∃ k2, k = k2 + 1 ∧ rs[k2]? = some q) := by
  intro rs
  induction rs with
  | nil => intro i j prev h; simp [walkValidate] at h
  | cons r rs' ih =>
    intro i j prev h
    have step :
        (∃ q, prev = some q ∧ 1 < r.start - q.stop ∧ j = i) ∨
        walkValidate (i + 1) (some r) rs' = some (RangeError.gap j) := by
      cases prev with
      | none =>
        by_cases hrev : r.start > r.stop
        · simp only [walkValidate, if_pos hrev, Option.some.injEq] at h
          exact absurd h (by intro c; cases c)
        · simp only [walkValidate, if_neg hrev] at h
          exact Or.inr h
      | some q =>
        by_cases hrev : r.start > r.stop
        · simp only [walkValidate, if_pos hrev, Option.some.injEq] at h
          exact absurd h (by intro c; cases c)
        · by_cases hov : r.start ≤ q.stop
          · simp only [walkValidate, if_neg hrev, if_pos hov, Option.some.injEq] at h
            exact absurd h (by intro c; cases c)
          · by_cases hgap : 1 < r.start - q.stop
            · simp only [walkValidate, if_neg hrev, if_neg hov, if_pos hgap,
                Option.some.injEq] at h
              exact Or.inl ⟨q, rfl, hgap, RangeError.gap.inj h.symm⟩
            · simp only [walkValidate, if_neg hrev, if_neg hov, if_neg hgap] at h
              exact Or.inr h
    rcases step with ⟨q, rfl, hgap, rfl⟩ | h'
    · exact ⟨0, r, q, by omega, by simp, hgap, Or.inl ⟨rfl, rfl⟩⟩
    · obtain ⟨k, a, q, hj, hget, hcond, hq⟩ := ih (i + 1) j (some r) h'
      refine ⟨k + 1, a, q, by omega, by simpa using hget, hcond, Or.inr ⟨k, rfl, ?_⟩⟩
      rcases hq with ⟨rfl, hq⟩ | ⟨k2, rfl, hq⟩
      · simpa using (Option.some.inj hq).symm ▸ rfl
      · simpa using hq

theorem walkValidate_congr {R : RateEntry → RateEntry → Prop}
    (hR : ∀ a b, R a b → a.start = b.start ∧ a.stop = b.stop) :
    ∀ {rs rs' : List RateEntry}, List.Forall₂ R rs rs' →
    ∀ (i : ℕ) {prev prev' : Option RateEntry}, optRel R prev prev' →
    walkValidate i prev rs = walkValidate i prev' rs' := by
  intro rs rs' hf
  induction hf with
  | nil =>
    intro i prev prev' hp
    cases prev <;> cases prev' <;> rfl
  | cons hab hrest ih =>
    rename_i a b l m
    intro i prev prev' hp
    obtain ⟨hs, ht⟩ := hR a b hab
    cases prev with
    | none =>
      cases prev' with
      | none =>
        simp only [walkValidate]
        rw [hs, ht]
        by_cases hrev : b.start > b.stop
        · rw [if_pos hrev, if_pos hrev]
        · rw [if_neg hrev, if_neg hrev]
          exact ih (i + 1) hab
      | some q' => exact absurd hp (by simp [optRel])
    | some q =>
      cases prev' with
      | none => exact absurd hp (by simp [optRel])
      | some q' =>
        obtain ⟨hqs, hqt⟩ := hR q q' hp
        simp only [walkValidate]
        rw [hs, ht, hqt]
        by_cases h1 : b.start > b.stop
        · rw [if_pos h1, if_pos h1]
        · rw [if_neg h1, if_neg h1]
          by_cases h2 : b.start ≤ q'.stop
          · rw [if_pos h2, if_pos h2]
          · rw [if_neg h2, if_neg h2]
            by_cases h3 : 1 < b.start - q'.stop
            · rw [if_pos h3, if_pos h3]
            · rw [if_neg h3, if_neg h3]
              exact ih (i + 1) hab

theorem forall₂_map_normEntry (l : List RateEntry) :
    List.Forall₂ (fun a b => a.start = b.start ∧ a.stop = b.stop)
      (l.map normEntry) l := by
  induction l with
  | nil => exact List.Forall₂.nil
  | cons r rs ih => exact List.Forall₂.cons ⟨rfl, rfl⟩ ih

theorem validate_map_normEntry (tbl : List RateEntry) :
    validate_interest_rate_ranges (tbl.map normEntry) =
      validate_interest_rate_ranges tbl := by
  unfold validate_interest_rate_ranges
  exact walkValidate_congr (fun a b h => h)
    (forall₂_sortByKey _ (fun a b h => h.1) (forall₂_map_normEntry tbl)) 0 trivial

theorem validate_sortByKey (l : List RateEntry) :
    validate_interest_rate_ranges (sortByKey (fun r => r.start) l) =
      validate_interest_rate_ranges l := by
  unfold validate_interest_rate_ranges
  rw [sortByKey_idem]

theorem pymin_le_left (a b : ℤ) : pymin a b ≤ a := by
  unfold pymin; split_ifs with h <;> omega

theorem pymin_le_right (a b : ℤ) : pymin a b ≤ b := by
  unfold pymin; split_ifs with h <;> omega

theorem le_pymin {a b c : ℤ} (h1 : c ≤ a) (h2 : c ≤ b) : c ≤ pymin a b := by
  unfold pymin; split_ifs with h <;> omega

theorem le_pymax_left (a b : ℤ) : a ≤ pymax a b := by
  unfold pymax; split_ifs with h <;> omega

theorem le_pymax_right (a b : ℤ) : b ≤ pymax a b := by
  unfold pymax; split_ifs with h <;> omega

theorem pymaxQ_zero_nonneg (a : ℚ) : 0 ≤ pymaxQ a 0 := by
  unfold pymaxQ; split_ifs with h
  · exact h
  · exact le_refl 0

theorem sumInterest_append (xs ys : List Row) :
    sumInterest (xs ++ ys) = sumInterest xs + sumInterest ys := by
  simp [sumInterest]

theorem forall₂_dropWhile_stop {R : RateEntry → RateEntry → Prop}
    (hR : ∀ a b, R a b → a.stop = b.stop) (s : ℤ) :
    ∀ {l m : List RateEntry}, List.Forall₂ R l m →
    List.Forall₂ R (l.dropWhile (fun r => r.stop < s))
      (m.dropWhile (fun r => r.stop < s)) := by
  intro l m h
  induction h with
  | nil => exact List.Forall₂.nil
  | cons hab hrest ih =>
    rename_i a b l' m'
    have hst := hR a b hab
    by_cases hc : a.stop < s
    · simpa [List.dropWhile_cons, ← hst, hc] using ih
    · simpa [List.dropWhile_cons, ← hst, hc] using List.Forall₂.cons hab hrest

theorem scanRates_mono :
    ∀ {rs rs' : List RateEntry}, List.Forall₂ rateLe rs rs' →
    ∀ (s e : ℤ) (p : ℚ), 0 ≤ p →
    sumInterest (scanRates s e p rs) ≤ sumInterest (scanRates s e p rs') := by
  intro rs rs' h
  induction h with
  | nil => intro s e p hp; exact le_refl _
  | cons hab hrest ih =>
    rename_i a b l m
    intro s e p hp
    obtain ⟨hs, ht, hr⟩ := hab
    simp only [scanRates]
    rw [hs, ht]
    by_cases h1 : b.start > e
    · rw [if_pos h1, if_pos h1]
    · rw [if_neg h1, if_neg h1]
      by_cases h2 : 0 < pymin b.stop e - pymax b.start s + 1
      · rw [if_pos h2, if_pos h2, sumInterest_append, sumInterest_append]
        have hd : (0 : ℚ) ≤ ((pymin b.stop e - pymax b.start s + 1 : ℤ) : ℚ) := by
          exact_mod_cast le_of_lt h2
        have hint : p * a.rate / 100 * ((pymin b.stop e - pymax b.start s + 1 : ℤ) : ℚ) / 365 ≤
            p * b.rate / 100 * ((pymin b.stop e - pymax b.start s + 1 : ℤ) : ℚ) / 365 := by
          gcongr
        have := round2_mono hint
        simp only [sumInterest, List.map_cons, List.map_nil, List.sum_cons, List.sum_nil]
        have hih := ih s e p hp
        simp only [sumInterest] at hih
        linarith
      · rw [if_neg h2, if_neg h2]
        simpa using ih s e p hp

theorem segmentRows_mono {rs rs' : List RateEntry}
    (h : List.Forall₂ rateLe rs rs') (s e : ℤ) (p : ℚ) (hp : 0 ≤ p) :
    sumInterest (segmentRows rs s e p) ≤ sumInterest (segmentRows rs' s e p) := by
  unfold segmentRows
  exact scanRates_mono
    (forall₂_dropWhile_stop (fun a b hab => hab.2.1) s h) s e p hp

theorem engineLoop_mono {rs rs' : List RateEntry}
    (h : List.Forall₂ rateLe rs rs') (stop : ℤ) :
    ∀ (ps : List Payment) (p : ℚ) (s : ℤ), 0 ≤ p →
    sumInterest (engineLoop rs stop ps p s) ≤
      sumInterest (engineLoop rs' stop ps p s) := by
  intro ps
  induction ps with
  | nil => intro p s hp; exact le_refl _
  | cons q qs ih =>
    intro p s hp
    simp only [engineLoop]
    by_cases hb : q.date + 1 > stop
    · rw [if_pos hb, if_pos hb]
      exact segmentRows_mono h _ _ p hp
    · rw [if_neg hb, if_neg hb, sumInterest_append, sumInterest_append]
      exact add_le_add (segmentRows_mono h _ _ p hp)
        (ih (pymaxQ (p - q.amount) 0) (q.date + 1) (pymaxQ_zero_nonneg _))

theorem detailed_mono {rs rs' : List RateEntry}
    (h : List.Forall₂ rateLe rs rs') (amount : ℚ) (due stop : ℤ)
    (ps : List Payment) (hp : 0 ≤ amount) :
    sumInterest (detailed_interest_with_payments amount due ps stop rs) ≤
      sumInterest (detailed_interest_with_payments amount due ps stop rs') := by
  unfold detailed_interest_with_payments
  exact engineLoop_mono h stop _ amount due hp

theorem scanRates_principal :
    ∀ (rs : List RateEntry) (s e : ℤ) (p : ℚ) (row : Row),
    row ∈ scanRates s e p rs → row.principal = p := by
  intro rs
  induction rs with
  | nil => intro s e p row h; simp [scanRates] at h
  | cons r rs' ih =>
    intro s e p row h
    simp only [scanRates] at h
    by_cases h1 : r.start > e
    · rw [if_pos h1] at h; simp at h
    · rw [if_neg h1] at h
      rcases List.mem_append.1 h with hl | hr
      · by_cases h2 : 0 < pymin r.stop e - pymax r.start s + 1
        · rw [if_pos h2] at hl
          simp only [List.mem_singleton] at hl
          rw [hl]
        · rw [if_neg h2] at hl; simp at hl
      · exact ih s e p row hr

theorem engineLoop_principal_nonneg (rs : List RateEntry) (stop : ℤ) :
    ∀ (ps : List Payment) (p : ℚ) (s : ℤ), 0 ≤ p →
    ∀ row ∈ engineLoop rs stop ps p s, 0 ≤ row.principal := by
  intro ps
  induction ps with
  | nil => intro p s hp row h; simp [engineLoop] at h
  | cons q qs ih =>
    intro p s hp row h
    simp only [engineLoop] at h
    by_cases hb : q.date + 1 > stop
    · rw [if_pos hb] at h
      rw [scanRates_principal _ _ _ _ _ h]
      exact hp
    · rw [if_neg hb] at h
      rcases List.mem_append.1 h with hl | hr
      · rw [scanRates_principal _ _ _ _ _ hl]
        exact hp
      · exact ih (pymaxQ (p - q.amount) 0) (q.date + 1) (pymaxQ_zero_nonneg _) row hr

theorem detailed_principal_nonneg (rs : List RateEntry) (amount : ℚ)
    (due stop : ℤ) (ps : List Payment) (hp : 0 ≤ amount) :
    ∀ row ∈ detailed_interest_with_payments amount due ps stop rs,
    0 ≤ row.principal := by
  unfold detailed_interest_with_payments
  exact engineLoop_principal_nonneg rs stop _ amount due hp

theorem scanRates_empty_of_stop_lt :
    ∀ (rs : List RateEntry) (s e : ℤ) (p : ℚ),
    (∀ r ∈ rs, r.stop < s) → scanRates s e p rs = [] := by
  intro rs
  induction rs with
  | nil => intro s e p _; rfl
  | cons r rs' ih =>
    intro s e p h
    simp only [scanRates]
    by_cases h1 : r.start > e
    · rw [if_pos h1]
    · rw [if_neg h1]
      have hstop : r.stop < s := h r (List.mem_cons_self r rs')
      have hpt : pymin r.stop e ≤ r.stop := pymin_le_left _ _
      have hpf : s ≤ pymax r.start s := le_pymax_right _ _
      rw [if_neg (by omega), ih s e p (fun a ha => h a (List.mem_cons_of_mem r ha))]
      rfl

theorem mem_of_mem_dropWhile {α : Type} (p : α → Bool) :
    ∀ (l : List α) (a : α), a ∈ l.dropWhile p → a ∈ l := by
  intro l
  induction l with
  | nil => intro a h; simp at h
  | cons x xs ih =>
    intro a h
    rw [List.dropWhile_cons] at h
    by_cases hc : p x
    · rw [if_pos hc] at h
      exact List.mem_cons_of_mem x (ih a h)
    · rw [if_neg hc] at h
      exact h

theorem segmentRows_empty_of_stop_lt (rs : List RateEntry) {B : ℤ}
    (hB : ∀ r ∈ rs, r.stop < B) (s e : ℤ) (p : ℚ) (hs : B ≤ s) :
    segmentRows rs s e p = [] := by
  unfold segmentRows
  apply scanRates_empty_of_stop_lt
  intro r hr
  have := hB r (mem_of_mem_dropWhile _ rs r hr)
  omega

theorem engineLoop_empty_of_stop_lt (rs : List RateEntry) (stop : ℤ) {B : ℤ}
    (hB : ∀ r ∈ rs, r.stop < B) (hstop : B ≤ stop) :
    ∀ (ps : List Payment) (p : ℚ) (s : ℤ),
    (∀ q ∈ ps, B ≤ q.date) → B ≤ s →
    engineLoop rs stop ps p s = [] := by
  intro ps
  induction ps with
  | nil => intro p s _ _; rfl
  | cons q qs ih =>
    intro p s hq hs
    have hqd : B ≤ q.date := hq q (List.mem_cons_self q qs)
    have hse : B ≤ pymin q.date stop := le_pymin hqd hstop
    simp only [engineLoop]
    have hrows :
        segmentRows rs (if s > pymin q.date stop then pymin q.date stop else s)
          (pymin q.date stop) p = [] := by
      apply segmentRows_empty_of_stop_lt rs hB
      split_ifs with h
      · exact hse
      · exact hs
    rw [hrows]
    by_cases hb : q.date + 1 > stop
    · rw [if_pos hb]
    · rw [if_neg hb]
      rw [ih (pymaxQ (p - q.amount) 0) (q.date + 1)
        (fun a ha => hq a (List.mem_cons_of_mem q ha)) (by omega)]
      rfl

theorem foldr_pymin_le_mem (ps : List Payment) (b : ℤ) :
    ∀ q ∈ ps, ps.foldr (fun p acc => pymin p.date acc) b ≤ q.date := by
  induction ps with
  | nil => intro q h; simp at h
  | cons x xs ih =>
    intro q h
    rcases List.mem_cons.1 h with rfl | h
    · exact pymin_le_left _ _
    · exact le_trans (pymin_le_right _ _) (ih q h)

theorem foldr_pymin_le_init (ps : List Payment) (b : ℤ) :
    ps.foldr (fun p acc => pymin p.date acc) b ≤ b := by
  induction ps with
  | nil => exact le_refl b
  | cons x xs ih => exact le_trans (pymin_le_right _ _) ih

theorem map_set {α β : Type} (f : α → β) :
    ∀ (l : List α) (i : ℕ) (a : α),
    (l.set i a).map f = (l.map f).set i (f a) := by
  intro l
  induction l with
  | nil => intro i a; rfl
  | cons x xs ih =>
    intro i a
    cases i with
    | zero => rfl
    | succ n => simp [List.set, ih]

theorem forall₂_set_of_rel {α : Type} {R : α → α → Prop} (hrefl : ∀ a, R a a) :
    ∀ (l : List α) (i : ℕ) (a b : α),
    l[i]? = some a → R a b → List.Forall₂ R l (l.set i b) := by
  intro l
  induction l with
  | nil => intro i a b h; simp at h
  | cons x xs ih =>
    intro i a b h hr
    cases i with
    | zero =>
      simp only [List.getElem?_cons_zero, Option.some.injEq] at h
      subst h
      exact List.Forall₂.cons hr (List.forall₂_same.2 (fun a _ => hrefl a))
    | succ n =>
      simp only [List.getElem?_cons_succ] at h
      exact List.Forall₂.cons (hrefl x) (ih n a b h hr)

theorem readRef_allocRef (h : ListStore) (l : List Payment) {r : ℕ}
    (hr : r < h.lists.length) : readRef (allocRef h l).1 r = readRef h r := by
  unfold readRef allocRef
  rw [List.getD_eq_getElem?_getD, List.getD_eq_getElem?_getD,
    List.getElem?_append_left hr]

theorem readRef_appendRef_ne (h : ListStore) (i r : ℕ) (p : Payment)
    (hne : i ≠ r) : readRef (appendRef h i p) r = readRef h r := by
  unfold readRef appendRef
  rw [List.getD_eq_getElem?_getD, List.getD_eq_getElem?_getD,
    List.getElem?_set_ne hne]

theorem readRef_detailed_heap (h : ListStore) (amount : ℚ) (due_date : ℤ)
    (paymentsRef : ℕ) (stop : ℤ) (rates : List RateEntry) {r : ℕ}
    (hr : r < h.lists.length) :
    readRef (detailed_interest_heap h amount due_date paymentsRef stop rates).1 r =
      readRef h r := by
  unfold detailed_interest_heap
  have halloc : (allocRef h (sortByKey (fun p => p.date) (readRef h paymentsRef))).2 =
      h.lists.length := rfl
  rw [readRef_appendRef_ne _ _ _ _ (by omega), readRef_allocRef h _ hr]

theorem readRef_alloc_self (h : ListStore) (l : List Payment) :
    readRef (allocRef h l).1 (allocRef h l).2 = l := by
  unfold readRef allocRef
  rw [List.getD_eq_getElem?_getD, List.getElem?_concat_length]
  rfl

theorem readRef_append_self (h : ListStore) (i : ℕ) (p : Payment)
    (hi : i < h.lists.length) :
    readRef (appendRef h i p) i = readRef h i ++ [p] := by
  unfold readRef appendRef
  rw [List.getD_eq_getElem?_getD, List.getElem?_set_eq_of_lt _ hi]
  rfl

theorem detailed_heap_rows (h : ListStore) (amount : ℚ) (due_date : ℤ)
    (paymentsRef : ℕ) (stop : ℤ) (rates : List RateEntry) :
    (detailed_interest_heap h amount due_date paymentsRef stop rates).2 =
      detailed_interest_with_payments amount due_date (readRef h paymentsRef)
        stop rates := by
  have hlen : (allocRef h (sortByKey (fun p => p.date) (readRef h paymentsRef))).2 <
      (allocRef h (sortByKey (fun p => p.date) (readRef h paymentsRef))).1.lists.length := by
    unfold allocRef
    simp
  show engineLoop rates stop
      (readRef
        (appendRef (allocRef h (sortByKey (fun p => p.date) (readRef h paymentsRef))).1
          (allocRef h (sortByKey (fun p => p.date) (readRef h paymentsRef))).2 ⟨stop, 0⟩)
        (allocRef h (sortByKey (fun p => p.date) (readRef h paymentsRef))).2)
      amount due_date =
    engineLoop rates stop
      (sortByKey (fun p => p.date) (readRef h paymentsRef) ++ [⟨stop, 0⟩])
      amount due_date
  rw [readRef_append_self _ _ _ hlen, readRef_alloc_self]

theorem readRef_calc_total_heap (h : ListStore) (inv : Invoice) (today : ℤ)
    (rates : List RateEntry) {r : ℕ} (hr : r < h.lists.length) :
    readRef (calculate_total_interest_heap h inv today rates).1 r =
      readRef h r := by
  unfold calculate_total_interest_heap
  by_cases h0 : inv.amount = 0
  · rw [if_pos h0]
  · rw [if_neg h0]
    have hlen : r < (allocRef h (sortByKey (fun p => p.date)
        (readRef h inv.paymentsRef))).1.lists.length := by
      unfold allocRef
      simp
      omega
    rw [readRef_detailed_heap _ _ _ _ _ _ hlen, readRef_allocRef h _ hr]

theorem engineLoop_nil_rates (stop : ℤ) :
    ∀ (ps : List Payment) (p : ℚ) (s : ℤ), engineLoop [] stop ps p s = [] := by
  intro ps
  induction ps with
  | nil => intro p s; rfl
  | cons q qs ih =>
    intro p s
    simp only [engineLoop]
    have hseg : segmentRows []
        (if s > pymin q.date stop then pymin q.date stop else s)
        (pymin q.date stop) p = [] := rfl
    rw [hseg]
    by_cases hb : q.date + 1 > stop
    · rw [if_pos hb]
    · rw [if_neg hb, ih]
      rfl

theorem totalWithTable_eq (tbl : List RateEntry) (amount : ℚ) (due_date : ℤ)
    (payments : List Payment) (stop : ℤ) :
    totalWithTable tbl amount due_date payments stop =
      match validate_interest_rate_ranges (tbl.map normEntry) with
      | some e => Except.error e
      | none => Except.ok (sumInterest (detailed_interest_with_payments amount
          due_date payments stop
          (sortByKey (fun r => r.start) (tbl.map normEntry)))) := by
  unfold totalWithTable get_interest_rates
  cases hv : validate_interest_rate_ranges (tbl.map normEntry) with
  | some e => simp [hv]
  | none => simp [hv]

/-- Claim C1, counterexample: replacing the single stored rate value 15 of a
valid one-interval table by the strictly larger stored value 21 makes the
engine's total interest drop from 12.74 to 0.18 (principal 1000, due
2022-01-01, no payments, cutoff 2022-01-31), because the normalization
divides stored values above 20 by 100 before use. -/
theorem C1_counterexample :
    ([⟨mkDate 2022 1 1, mkDate 2022 12 31, 15⟩] : List RateEntry).set 0
        ⟨mkDate 2022 1 1, mkDate 2022 12 31, 21⟩ =
      ([⟨mkDate 2022 1 1, mkDate 2022 12 31, 21⟩] : List RateEntry) ∧
    (15 : ℚ) < 21 ∧
    totalWithTable [⟨mkDate 2022 1 1, mkDate 2022 12 31, 15⟩] 1000
      (mkDate 2022 1 1) [] (mkDate 2022 1 31) = Except.ok 12.74 ∧
    totalWithTable [⟨mkDate 2022 1 1, mkDate 2022 12 31, 21⟩] 1000
      (mkDate 2022 1 1) [] (mkDate 2022 1 31) = Except.ok 0.18 ∧
    (0.18 : ℚ) < 12.74 := by
  refine ⟨rfl, by norm_num, by decide, by decide, by norm_num⟩

/-- Claim C1, amended: for a fixed nonnegative principal, due date, payments
and cutoff, replacing the rate value of any one interval of the stored table
by a strictly larger value *whose normalized value (divided by 100 when above
20) is also at least the original's normalized value* never decreases the
total computed interest of the engine pipeline
(`get_interest_rates` + `detailed_interest_with_payments`). -/
theorem C1_rate_monotonicity (tbl : List RateEntry) (i : ℕ) (e : RateEntry)
    (r' : ℚ) (amount x : ℚ) (due_date stop : ℤ) (payments : List Payment)
    (hamt : 0 ≤ amount) (hi : tbl[i]? = some e) (hlt : e.rate < r')
    (hnorm : normRate e.rate ≤ normRate r')
    (hok : totalWithTable tbl amount due_date payments stop = Except.ok x) :
    ∃ y, totalWithTable (tbl.set i ⟨e.start, e.stop, r'⟩) amount due_date
        payments stop = Except.ok y ∧ x ≤ y := by
  have hFa : List.Forall₂ rateLe (tbl.map normEntry)
      ((tbl.set i ⟨e.start, e.stop, r'⟩).map normEntry) := by
    rw [map_set]
    apply forall₂_set_of_rel (fun a => ⟨rfl, rfl, le_refl _⟩) _ i (normEntry e)
    · rw [List.getElem?_map, hi]
      rfl
    · exact ⟨rfl, rfl, hnorm⟩
  have hval : validate_interest_rate_ranges
      ((tbl.set i ⟨e.start, e.stop, r'⟩).map normEntry) =
      validate_interest_rate_ranges (tbl.map normEntry) := by
    unfold validate_interest_rate_ranges
    exact (@walkValidate_congr rateLe (fun a b hab => ⟨hab.1, hab.2.1⟩) _ _
      (forall₂_sortByKey _ (fun a b hab => hab.1) hFa) 0 none none trivial).symm
  rw [totalWithTable_eq] at hok
  rw [totalWithTable_eq, hval]
  cases hv : validate_interest_rate_ranges (tbl.map normEntry) with
  | some err =>
    rw [hv] at hok
    exact absurd hok (by intro c; cases c)
  | none =>
    rw [hv] at hok
    refine ⟨_, rfl, ?_⟩
    have hx := Except.ok.inj hok
    rw [← hx]
    exact detailed_mono (forall₂_sortByKey _ (fun a b hab => hab.1) hFa)
      amount due_date stop payments hamt

/-- Claim C1, witness for the amended theorem: raising the stored rate of the
single interval from 7 to 8 (normalized values 7 and 8) keeps the total at
least the original 5.95. -/
theorem C1_witness :
    ∃ y, totalWithTable ([⟨mkDate 2022 1 1, mkDate 2022 12 31, (7 : ℚ)⟩].set 0
        ⟨mkDate 2022 1 1, mkDate 2022 12 31, (8 : ℚ)⟩) 1000
        (mkDate 2022 1 1) [] (mkDate 2022 1 31) = Except.ok y ∧
      (5.95 : ℚ) ≤ y :=
  C1_rate_monotonicity [⟨mkDate 2022 1 1, mkDate 2022 12 31, 7⟩] 0
    ⟨mkDate 2022 1 1, mkDate 2022 12 31, 7⟩ 8 1000 5.95
    (mkDate 2022 1 1) (mkDate 2022 1 31) [] (by norm_num) (by decide)
    (by norm_num) (by decide) (by decide)

/-- Claim C2: the code, run at the failing input (principal 1000, due date
2022-01-10, a payment of 100 dated 2022-01-05 — before the due date — cutoff
2022-01-31, flat 7% rate). The payment date precedes the segment start, so
`segment_start` is clamped down to `segment_end`; the clamped segment is the
single day 2022-01-05 (`days = 1`, not zero-or-negative), and the engine
emits a line item with positive interest 0.19 for it — a full day of
interest accrued before the due date, contradicting the claim (and the
docstring "odsetki liczone OD dnia wymagalności"). -/
theorem C2_clamped_segment_accrues :
    mkDate 2022 1 10 > pymin (mkDate 2022 1 5) (mkDate 2022 1 31) ∧
    detailed_interest_with_payments 1000 (mkDate 2022 1 10)
      [⟨mkDate 2022 1 5, 100⟩] (mkDate 2022 1 31)
      [⟨mkDate 2022 1 1, mkDate 2022 12 31, 7⟩] =
    [⟨mkDate 2022 1 5, mkDate 2022 1 5, 7, 1, 1000, 0.19⟩,
     ⟨mkDate 2022 1 6, mkDate 2022 1 31, 7, 26, 900, 4.49⟩] ∧
    (0 : ℚ) < 0.19 ∧ mkDate 2022 1 5 < mkDate 2022 1 10 := by
  refine ⟨by decide, by decide, by norm_num, by decide⟩

/-- Claim C3: the code, run at the failing input (principal 500 fully paid on
the due date 2022-01-10, cutoff equal to the due date, flat 7% rate covering
that date). The engine emits one line item for the single day of the due
date itself, with interest `round(500 * 0.07 / 365, 2) = 0.10`, so the
result sequence is neither empty nor summing to 0 as the claim states. -/
theorem C3_payment_on_due_date_accrues :
    detailed_interest_with_payments 500 (mkDate 2022 1 10)
      [⟨mkDate 2022 1 10, 500⟩] (mkDate 2022 1 10)
      [⟨mkDate 2022 1 1, mkDate 2022 12 31, 7⟩] =
    [⟨mkDate 2022 1 10, mkDate 2022 1 10, 7, 1, 500, 0.10⟩] ∧
    sumInterest (detailed_interest_with_payments 500 (mkDate 2022 1 10)
      [⟨mkDate 2022 1 10, 500⟩] (mkDate 2022 1 10)
      [⟨mkDate 2022 1 1, mkDate 2022 12 31, 7⟩]) = 0.10 ∧
    (0.10 : ℚ) ≠ 0 := by
  refine ⟨by decide, by decide, by norm_num⟩

/-- Claim C4: validation raises exactly on the three defined violations.
After sorting by start date: the walk returns no error iff every interval
has `start ≤ end` and every adjacent pair is non-overlapping with a gap of
at most one day; a reversed-range error at index `j` names an interval with
`start > end`; an overlap error at `j` names a pair with the later start at
or before the previous end; a gap error at `j` names a pair whose gap
exceeds one day. -/
theorem C4_validation_errors (rates : List RateEntry) :
    (validate_interest_rate_ranges rates = none ↔
      ((∀ r ∈ sortByKey (fun r => r.start) rates, r.start ≤ r.stop) ∧
        adjacentOk (sortByKey (fun r => r.start) rates))) ∧
    (∀ j, validate_interest_rate_ranges rates = some (RangeError.reversedRange j) →
      ∃ r, (sortByKey (fun r => r.start) rates)[j]? = some r ∧
        r.stop < r.start) ∧
    (∀ j, validate_interest_rate_ranges rates = some (RangeError.overlap j) →
      ∃ q r, 1 ≤ j ∧
        (sortByKey (fun r => r.start) rates)[j - 1]? = some q ∧
        (sortByKey (fun r => r.start) rates)[j]? = some r ∧
        r.start ≤ q.stop) ∧
    (∀ j, validate_interest_rate_ranges rates = some (RangeError.gap j) →
      ∃ q r, 1 ≤ j ∧
        (sortByKey (fun r => r.start) rates)[j - 1]? = some q ∧
        (sortByKey (fun r => r.start) rates)[j]? = some r ∧
        1 < r.start - q.stop) := by
  refine ⟨?_, ?_, ?_, ?_⟩
  · have := walkValidate_none_iff (sortByKey (fun r => r.start) rates) 0 none
    simpa [validate_interest_rate_ranges] using this
  · intro j h
    obtain ⟨k, r, hj, hget, hc⟩ :=
      walkValidate_reversed (sortByKey (fun r => r.start) rates) 0 j none h
    exact ⟨r, by rw [hj, Nat.zero_add]; exact hget, hc⟩
  · intro j h
    obtain ⟨k, r, q, hj, hget, hcond, hq⟩ :=
      walkValidate_overlap (sortByKey (fun r => r.start) rates) 0 j none h
    rcases hq with ⟨-, hq⟩ | ⟨k2, hk, hq⟩
    · exact absurd hq (by intro c; cases c)
    · refine ⟨q, r, by omega, ?_, by rw [hj, Nat.zero_add]; exact hget, hcond⟩
      have : j - 1 = k2 := by omega
      rw [this]
      exact hq
  · intro j h
    obtain ⟨k, r, q, hj, hget, hcond, hq⟩ :=
      walkValidate_gap (sortByKey (fun r => r.start) rates) 0 j none h
    rcases hq with ⟨-, hq⟩ | ⟨k2, hk, hq⟩
    · exact absurd hq (by intro c; cases c)
    · refine ⟨q, r, by omega, ?_, by rw [hj, Nat.zero_add]; exact hget, hcond⟩
      have : j - 1 = k2 := by omega
      rw [this]
      exact hq

/-- Claim C4, witness: the overlapping pair of `test_validate_overlap` is
rejected (its sorted form violates `okPair`, so by the theorem the result is
not `none`), and a contiguous two-interval table passes. -/
theorem C4_witness :
    validate_interest_rate_ranges
      [⟨mkDate 2022 1 1, mkDate 2022 1 15, 7⟩,
       ⟨mkDate 2022 1 16, mkDate 2022 12 31, 10⟩] = none :=
  (C4_validation_errors
    [⟨mkDate 2022 1 1, mkDate 2022 1 15, 7⟩,
     ⟨mkDate 2022 1 16, mkDate 2022 12 31, 10⟩]).1.mpr (by decide)

/-- Claim C5: partial-payment reference result. Principal 1000, one flat 10%
interval covering 2022, payment of 400 on 2022-01-16, due 2022-01-01, cutoff
2022-01-31: the engine emits exactly the line items
(2022-01-01..2022-01-16, 16 days, principal 1000, interest 4.38) and
(2022-01-17..2022-01-31, 15 days, principal 600, interest 2.47),
each rounded independently, totalling 6.85. -/
theorem C5_partial_payment :
    detailed_interest_with_payments 1000 (mkDate 2022 1 1)
      [⟨mkDate 2022 1 16, 400⟩] (mkDate 2022 1 31)
      [⟨mkDate 2022 1 1, mkDate 2022 12 31, 10⟩] =
    [⟨mkDate 2022 1 1, mkDate 2022 1 16, 10, 16, 1000, 4.38⟩,
     ⟨mkDate 2022 1 17, mkDate 2022 1 31, 10, 15, 600, 2.47⟩] ∧
    sumInterest (detailed_interest_with_payments 1000 (mkDate 2022 1 1)
      [⟨mkDate 2022 1 16, 400⟩] (mkDate 2022 1 31)
      [⟨mkDate 2022 1 1, mkDate 2022 12 31, 10⟩]) = 6.85 ∧
    (4.38 : ℚ) + 2.47 = 6.85 := by
  refine ⟨by decide, by decide, by norm_num⟩

/-- Claim C6: overpayment floors principal at zero. Concretely (principal
1000, flat 7%, payment of 1200 on 2022-01-05, due 2022-01-01, cutoff
2022-01-31) the total is 0.96 and the post-payment segment runs on principal
0. Generally, the loop's principal update is literally
`max(principal - payment.amount, 0)`, and consequently every emitted line
item's principal is nonnegative whenever the invoice amount is. -/
theorem C6_overpayment :
    detailed_interest_with_payments 1000 (mkDate 2022 1 1)
      [⟨mkDate 2022 1 5, 1200⟩] (mkDate 2022 1 31)
      [⟨mkDate 2022 1 1, mkDate 2022 12 31, 7⟩] =
    [⟨mkDate 2022 1 1, mkDate 2022 1 5, 7, 5, 1000, 0.96⟩,
     ⟨mkDate 2022 1 6, mkDate 2022 1 31, 7, 26, 0, 0⟩] ∧
    sumInterest (detailed_interest_with_payments 1000 (mkDate 2022 1 1)
      [⟨mkDate 2022 1 5, 1200⟩] (mkDate 2022 1 31)
      [⟨mkDate 2022 1 1, mkDate 2022 12 31, 7⟩]) = 0.96 ∧
    (∀ (rates : List RateEntry) (stop : ℤ) (q : Payment) (qs : List Payment)
        (principal : ℚ) (s : ℤ), ¬(q.date + 1 > stop) →
      engineLoop rates stop (q :: qs) principal s =
        segmentRows rates
          (if s > pymin q.date stop then pymin q.date stop else s)
          (pymin q.date stop) principal ++
        engineLoop rates stop qs (pymaxQ (principal - q.amount) 0)
          (q.date + 1)) ∧
    (∀ (rates : List RateEntry) (amount : ℚ) (due_date stop : ℤ)
        (ps : List Payment), 0 ≤ amount →
      ∀ row ∈ detailed_interest_with_payments amount due_date ps stop rates,
      0 ≤ row.principal) := by
  refine ⟨by decide, by decide, ?_, ?_⟩
  · intro rates stop q qs principal s hb
    simp only [engineLoop]
    rw [if_neg hb]
  · intro rates amount due_date stop ps hamt row hrow
    exact detailed_principal_nonneg rates amount due_date stop ps hamt row hrow

/-- Claim C6, witness: the amended general parts applied at the overpayment
input — the second emitted row runs on principal 0 (which is nonnegative),
and the loop step at the 1200 payment reduces the principal to
`max(1000 - 1200, 0)`. -/
theorem C6_witness :
    (0 : ℚ) ≤ (⟨mkDate 2022 1 6, mkDate 2022 1 31, 7, 26, 0, 0⟩ : Row).principal ∧
    engineLoop [⟨mkDate 2022 1 1, mkDate 2022 12 31, 7⟩] (mkDate 2022 1 31)
        [⟨mkDate 2022 1 5, 1200⟩] 1000 (mkDate 2022 1 1) =
      segmentRows [⟨mkDate 2022 1 1, mkDate 2022 12 31, 7⟩]
        (if mkDate 2022 1 1 > pymin (mkDate 2022 1 5) (mkDate 2022 1 31) then
          pymin (mkDate 2022 1 5) (mkDate 2022 1 31)
        else mkDate 2022 1 1)
        (pymin (mkDate 2022 1 5) (mkDate 2022 1 31)) 1000 ++
      engineLoop [⟨mkDate 2022 1 1, mkDate 2022 12 31, 7⟩] (mkDate 2022 1 31)
        [] (pymaxQ (1000 - 1200) 0) (mkDate 2022 1 5 + 1) :=
  ⟨C6_overpayment.2.2.2 [⟨mkDate 2022 1 1, mkDate 2022 12 31, 7⟩] 1000
      (mkDate 2022 1 1) (mkDate 2022 1 31) [⟨mkDate 2022 1 5, 1200⟩]
      (by norm_num) _ (by decide),
   C6_overpayment.2.2.1 [⟨mkDate 2022 1 1, mkDate 2022 12 31, 7⟩]
      (mkDate 2022 1 31) ⟨mkDate 2022 1 5, 1200⟩ [] 1000 (mkDate 2022 1 1)
      (by decide)⟩

/-- Claim C7: validation round-trip. Whatever sorted, normalized effective
interval list `get_interest_rates` returns for a table that passed its
validation, re-running validation on that list succeeds: sorting is
idempotent and validation only inspects the dates, which normalization
leaves unchanged. -/
theorem C7_validate_roundtrip (tbl rs : List RateEntry)
    (h : get_interest_rates tbl = Except.ok rs) :
    validate_interest_rate_ranges rs = none := by
  unfold get_interest_rates at h
  cases hv : validate_interest_rate_ranges (tbl.map normEntry) with
  | some e => simp [hv] at h
  | none =>
    simp only [hv] at h
    have hrs := Except.ok.inj h
    rw [← hrs, validate_sortByKey]
    exact hv

/-- Claim C7, witness: the round-trip at the default schedule. -/
theorem C7_witness :
    validate_interest_rate_ranges (sortByKey (fun r => r.start)
      (DEFAULT_INTEREST_RATES.map normEntry)) = none :=
  C7_validate_roundtrip DEFAULT_INTEREST_RATES _ (by decide)

/-- Claim C8, counterexample: the built-in default rate schedule has 18
intervals, not 17. -/
theorem C8_counterexample :
    DEFAULT_INTEREST_RATES.length = 18 ∧ DEFAULT_INTEREST_RATES.length ≠ 17 := by
  decide

/-- Claim C8, amended: the built-in default rate schedule consists of exactly
18 intervals, the first starting 2016-01-01 and the last ending at the
open-ended boundary 2100-01-01, and the collection passes validation
(contiguous, with at most one-day gaps). -/
theorem C8_default_schedule :
    DEFAULT_INTEREST_RATES.length = 18 ∧
    DEFAULT_INTEREST_RATES.head?.map (fun r => r.start) =
      some (mkDate 2016 1 1) ∧
    DEFAULT_INTEREST_RATES.getLast?.map (fun r => r.stop) =
      some (mkDate 2100 1 1) ∧
    validate_interest_rate_ranges DEFAULT_INTEREST_RATES = none := by
  refine ⟨by decide, by decide, by decide, by decide⟩

/-- Claim C9: the engine does not mutate its inputs. In the heap model of the
Python lists: `detailed_interest_with_payments` leaves every pre-existing
list object (in particular the caller's payments list) unchanged, its result
equals the pure function of the *original* payments content (the synthetic
terminal payment is appended only to the freshly allocated sorted copy), and
`calculate_total_interest` likewise leaves every pre-existing list object
unchanged (its `Invoice` argument is read-only: no field write occurs, so
the invoice value is untouched by construction). -/
theorem C9_no_mutation :
    (∀ (h : ListStore) (amount : ℚ) (due_date : ℤ) (paymentsRef : ℕ)
        (stop : ℤ) (rates : List RateEntry) (r : ℕ), r < h.lists.length →
      readRef (detailed_interest_heap h amount due_date paymentsRef stop
        rates).1 r = readRef h r) ∧
    (∀ (h : ListStore) (amount : ℚ) (due_date : ℤ) (paymentsRef : ℕ)
        (stop : ℤ) (rates : List RateEntry),
      (detailed_interest_heap h amount due_date paymentsRef stop rates).2 =
        detailed_interest_with_payments amount due_date
          (readRef h paymentsRef) stop rates) ∧
    (∀ (h : ListStore) (inv : Invoice) (today : ℤ) (rates : List RateEntry)
        (r : ℕ), r < h.lists.length →
      readRef (calculate_total_interest_heap h inv today rates).1 r =
        readRef h r) :=
  ⟨fun h a d pr s rs r hr => readRef_detailed_heap h a d pr s rs hr,
   fun h a d pr s rs => detailed_heap_rows h a d pr s rs,
   fun h inv t rs r hr => readRef_calc_total_heap h inv t rs hr⟩

/-- Claim C9, witness: on a store holding one payments list, both the engine
and the aggregate leave that list exactly as it was. -/
theorem C9_witness :
    readRef (detailed_interest_heap ⟨[[⟨mkDate 2022 1 5, 100⟩]]⟩ 1000
      (mkDate 2022 1 1) 0 (mkDate 2022 1 31)
      [⟨mkDate 2022 1 1, mkDate 2022 12 31, 7⟩]).1 0 =
      [⟨mkDate 2022 1 5, 100⟩] ∧
    readRef (calculate_total_interest_heap ⟨[[⟨mkDate 2022 1 5, 100⟩]]⟩
      ⟨1, mkDate 2022 1 1, 1000, 0⟩ (mkDate 2022 1 31)
      [⟨mkDate 2022 1 1, mkDate 2022 12 31, 7⟩]).1 0 =
      [⟨mkDate 2022 1 5, 100⟩] := by
  constructor
  · rw [C9_no_mutation.1 ⟨[[⟨mkDate 2022 1 5, 100⟩]]⟩ 1000 (mkDate 2022 1 1)
      0 (mkDate 2022 1 31) [⟨mkDate 2022 1 1, mkDate 2022 12 31, 7⟩] 0
      (by decide)]
    decide
  · rw [C9_no_mutation.2.2 ⟨[[⟨mkDate 2022 1 5, 100⟩]]⟩
      ⟨1, mkDate 2022 1 1, 1000, 0⟩ (mkDate 2022 1 31)
      [⟨mkDate 2022 1 1, mkDate 2022 12 31, 7⟩] 0 (by decide)]
    decide

/-- Claim C10: an empty rate table passes validation; the engine with an
empty rate list emits no line items at all; and when every rate interval
ends strictly before the first segment start (the minimum of the due date,
the cutoff and all payment dates), the engine emits no line items, so the
total is silently 0 with no error raised. -/
theorem C10_empty_rates :
    validate_interest_rate_ranges [] = none ∧
    (∀ (amount : ℚ) (due_date stop : ℤ) (ps : List Payment),
      detailed_interest_with_payments amount due_date ps stop [] = []) ∧
    (∀ (rates : List RateEntry) (amount : ℚ) (due_date stop : ℤ)
        (ps : List Payment), 0 < amount →
      (∀ r ∈ rates, r.stop < firstSegStart due_date stop ps) →
      detailed_interest_with_payments amount due_date ps stop rates = []) := by
  refine ⟨rfl, ?_, ?_⟩
  · intro amount due_date stop ps
    unfold detailed_interest_with_payments
    exact engineLoop_nil_rates stop _ amount due_date
  · intro rates amount due_date stop ps hpos hlt
    unfold detailed_interest_with_payments
    have hstop : firstSegStart due_date stop ps ≤ stop := by
      unfold firstSegStart
      exact le_trans (pymin_le_right _ _) (pymin_le_left _ _)
    apply engineLoop_empty_of_stop_lt rates stop hlt hstop
    · intro q hq
      rcases List.mem_append.1 hq with hs | hsent
      · have hmem : q ∈ ps := (mem_sortByKey (fun p => p.date) ps q).1 hs
        unfold firstSegStart
        exact le_trans (pymin_le_right _ _)
          (le_trans (pymin_le_right _ _) (foldr_pymin_le_mem ps stop q hmem))
      · have : q = ⟨stop, 0⟩ := by simpa using hsent
        rw [this]
        exact hstop
    · unfold firstSegStart
      exact pymin_le_left _ _

/-- Claim C10, witness: a rate interval ending (day 5) strictly before the
first segment start (day 10) yields no line items. -/
theorem C10_witness :
    detailed_interest_with_payments 100 10 [⟨12, 50⟩] 20
      [⟨0, 5, 7⟩] = [] :=
  C10_empty_rates.2.2 [⟨0, 5, 7⟩] 100 10 20 [⟨12, 50⟩] (by norm_num)
    (by decide)

-- Sanity checks against the reference outputs of `test_interest.py`.
example :
    sumInterest (detailed_interest_with_payments 1000 (mkDate 2022 1 1) []
      (mkDate 2022 1 31) [⟨mkDate 2022 1 1, mkDate 2022 12 31, 7⟩]) = 5.95 := by
  decide

example :
    sumInterest (detailed_interest_with_payments 1000 (mkDate 2022 1 1) []
      (mkDate 2022 1 31)
      [⟨mkDate 2022 1 1, mkDate 2022 1 15, 7⟩,
       ⟨mkDate 2022 1 16, mkDate 2022 12 31, 10⟩]) = 7.26 := by
  decide

example :
    sumInterest (detailed_interest_with_payments 1000 (mkDate 2022 1 1)
      [⟨mkDate 2022 1 16, 400⟩] (mkDate 2022 1 31)
      [⟨mkDate 2022 1 1, mkDate 2022 12 31, 10⟩]) = 6.85 := by
  decide

example :
    sumInterest (detailed_interest_with_payments 1000 (mkDate 2022 1 1)
      [⟨mkDate 2022 1 5, 1200⟩] (mkDate 2022 1 31)
      [⟨mkDate 2022 1 1, mkDate 2022 12 31, 7⟩]) = 0.96 := by
  decide

example : validate_interest_rate_ranges DEFAULT_INTEREST_RATES = none := by
  decide

example : DEFAULT_INTEREST_RATES.length = 18 := by decide

end RentCalc
